import Mathlib

/-!
Verification development for the depth-aware motion deblurring engine
(`src/motion-deblurring/src/depth_deblur.cpp`).

The C++ core is shallowly embedded: per-pixel float arithmetic is modelled
over `ℚ`, `std::complex<float>` over a pair of rationals, images and masks
as total functions `ℕ → ℕ → ℚ`, and the concurrent tree walks as a labelled
transition system over explicit states.  External solvers (OpenCV `dft`,
`deconvolveFFT`, `deconvolveIRLS`, `coherenceFilter`, `crossCorrelation`)
are abstracted as function parameters; everything that the file
`depth_deblur.cpp` itself computes is translated directly from that source.
-/

namespace DepthDeblur

/-- Complex numbers with rational components, modelling `std::complex<float>`
as used in `DepthDeblur::jointPSFEstimation`. -/
@[ext]
structure Cplx where
  re : ℚ
  im : ℚ
deriving DecidableEq

/-- Complex addition. -/
def cadd (a b : Cplx) : Cplx := ⟨a.re + b.re, a.im + b.im⟩

/-- Complex multiplication. -/
def cmul (a b : Cplx) : Cplx :=
  ⟨a.re * b.re - a.im * b.im, a.re * b.im + a.im * b.re⟩

/-- Complex conjugation (`std::conj`). -/
def cconj (a : Cplx) : Cplx := ⟨a.re, -a.im⟩

/-- Complex division, implemented by the usual conjugate/norm formula. -/
def cdiv (a b : Cplx) : Cplx :=
  ⟨(a.re * b.re + a.im * b.im) / (b.re * b.re + b.im * b.im),
   (a.im * b.re - a.re * b.im) / (b.re * b.re + b.im * b.im)⟩

/-- The delta image built in `jointPSFEstimation` (source lines 277–278):
a single `1` at pixel `(0,0)` of an otherwise zero image.  Its Fourier
transform is the `D` entering the regularizer term of the per-bin formula. -/
def deltaImage : ℕ → ℕ → ℚ := fun r c => if r = 0 ∧ c = 0 then 1 else 0

/-- Per-spectral-bin kernel value computed by `jointPSFEstimation`
(source lines 306–347).  Arguments follow the source variable names:
`xsr ysr` are the reference view's salient-edge transforms, `xsm ysm` the
matching view's, `xbr ybr xbm ybm` the corresponding blurred-gradient
transforms, and `d` the transform of `deltaImage` at this bin.  The weight
`γ` is hard-coded to `1` (source line 327). -/
def kernelBin (xsr ysr xsm ysm xbr ybr xbm ybm d : Cplx) : Cplx :=
  cdiv (cadd (cadd (cmul (cconj xsr) xbr) (cmul (cconj xsm) xbm))
             (cadd (cmul (cconj ysr) ybr) (cmul (cconj ysm) ybm)))
       (cadd (cadd (cadd (cmul (cconj xsr) xsr) (cmul (cconj ysr) ysr))
                   (cadd (cmul (cconj xsm) xsm) (cmul (cconj ysm) ysm)))
             (cmul (cmul (⟨1, 0⟩ : Cplx) (cconj d)) d))

/-- Sum of a per-view quantity over the two stereo views. -/
def viewSum (f : Fin 2 → Cplx) : Cplx := cadd (f 0) (f 1)

/-- The spec's wording of the per-bin formula: the sum over both views of
`conj(Sx_v)·Bx_v + conj(Sy_v)·By_v`, divided by the sum over both views of
`conj(Sx_v)·Sx_v + conj(Sy_v)·Sy_v` plus `γ·conj(D)·D`. -/
def kernelBinSpecFormula (sx sy bx by2 : Fin 2 → Cplx) (γ d : Cplx) : Cplx :=
  cdiv (viewSum (fun v => cadd (cmul (cconj (sx v)) (bx v))
                               (cmul (cconj (sy v)) (by2 v))))
       (cadd (viewSum (fun v => cadd (cmul (cconj (sx v)) (sx v))
                                     (cmul (cconj (sy v)) (sy v))))
             (cmul (cmul γ (cconj d)) d))

/-! ### Post-processing of the inverse-transformed kernel (C2) -/

/-- `threshold(kernel, kernel, 0.0, -1, THRESH_TOZERO)` (source line 356):
every entry not strictly positive becomes zero. -/
def threshToZero (k : ℕ → ℕ → ℚ) : ℕ → ℕ → ℚ :=
  fun r c => if 0 < k r c then k r c else 0

/-- The slice swap of `jointPSFEstimation` (source lines 358–385): the four
rectangles `q0..q3` cut at `hs1 = hs2 = (psfWidth-1)/2` from the right and
bottom are re-assembled as `[q3 q2; q1 q0]`, re-centering the corner-centered
inverse transform.  `rows`/`cols` are the full kernel image dimensions. -/
def swapSlices (rows cols hs1 hs2 : ℕ) (k : ℕ → ℕ → ℚ) : ℕ → ℕ → ℚ :=
  fun r c =>
    k (if r < hs2 then rows - hs2 + r else r - hs2)
      (if c < hs1 then cols - hs1 + c else c - hs1)

/-- Sum of the `psfWidth × psfWidth` window at the top-left corner
(the crop `Rect(0, 0, psfWidth, psfWidth)` of source line 388 followed by
`sum(psf)` of source line 401). -/
def cropSum (psfW : ℕ) (k : ℕ → ℕ → ℚ) : ℚ :=
  ∑ r ∈ Finset.range psfW, ∑ c ∈ Finset.range psfW, k r c

/-- The thresholded and re-centered kernel image, before cropping. -/
def recenteredKernel (rows cols psfW : ℕ) (kernel : ℕ → ℕ → ℚ) : ℕ → ℕ → ℚ :=
  swapSlices rows cols ((psfW - 1) / 2) ((psfW - 1) / 2) (threshToZero kernel)

/-- The final PSF produced by `jointPSFEstimation` after the inverse
transform: threshold negatives to zero, swap slices, crop, and divide by the
window total (`psf /= sum(psf)[0]`, source line 401). -/
def jointPSFPost (rows cols psfW : ℕ) (kernel : ℕ → ℕ → ℚ) : ℕ → ℕ → ℚ :=
  fun r c =>
    recenteredKernel rows cols psfW kernel r c /
      cropSum psfW (recenteredKernel rows cols psfW kernel)

/-! ### Child-PSF estimation dispatch in Pass 1 (C3) -/

/-- Sum of a mask over its pixel grid, modelling `sum(mask)[0]`. -/
def maskSum (rows cols : ℕ) (mask : ℕ → ℕ → ℚ) : ℚ :=
  ∑ r ∈ Finset.range rows, ∑ c ∈ Finset.range cols, mask r c

/-- One child's PSF assignment inside `midLevelKernelEstimationNode`
(source lines 726–750): if both view masks have non-zero sum, invoke the
joint estimator (abstracted as `estimate`) on the parent's PSF and the two
masks; otherwise inherit the parent's PSF verbatim.  The boolean records
whether the numeric estimation call was made. -/
def estimateChildStep {α : Type} (estimate : α → (ℕ → ℕ → ℚ) → (ℕ → ℕ → ℚ) → α)
    (parentPSF : α) (rows cols : ℕ) (maskL maskR : ℕ → ℕ → ℚ) : Bool × α :=
  if maskSum rows cols maskL ≠ 0 ∧ maskSum rows cols maskR ≠ 0 then
    (true, estimate parentPSF maskL maskR)
  else
    (false, parentPSF)

/-! ### PSF reliability (C4) -/

/-- Mean entropy over the nodes of one tree level
(`sum / peers.size()`, source lines 533–540). -/
def levelMeanEntropy (peers : List ℚ) : ℚ := peers.sum / peers.length

/-- `DepthDeblur::isReliablePSF` (source lines 527–550): a node is reliable
iff its entropy minus the mean entropy of its level peers is strictly below
the empirical threshold `0.2 * mean`. -/
def isReliablePSF (entropy : ℚ) (peers : List ℚ) : Bool :=
  if entropy - levelMeanEntropy peers < 0.2 * levelMeanEntropy peers then
    true
  else
    false

/-! ### Pass-2 candidate selection (C5) -/

/-- `DepthDeblur::candidateSelection` (source lines 553–565): the node's own
PSF and the parent's PSF are always candidates, in that order; the sibling's
PSF is appended only when the sibling is reliable.  The sibling's
reliability input is its entropy together with its level-peer entropies. -/
def candidateSelection (α : Type) (own parentPSF sibling : α)
    (siblingEntropy : ℚ) (siblingPeers : List ℚ) : List α :=
  [own, parentPSF] ++
    (if isReliablePSF siblingEntropy siblingPeers then [sibling] else [])

/-- The selection loop of `DepthDeblur::psfSelection` (source lines
568–630): starting from `minEnergy = 2` and `winner = 0`, each candidate
whose energy is strictly below the current minimum becomes the new winner.
`i` is the index of the first list element. -/
def psfSelectionLoop (i : ℕ) (minEnergy : ℚ) (winner : ℕ) : List ℚ → ℚ × ℕ
  | [] => (minEnergy, winner)
  | e :: rest =>
    if e < minEnergy then psfSelectionLoop (i + 1) e i rest
    else psfSelectionLoop (i + 1) minEnergy winner rest

/-- Index of the winning candidate returned by `psfSelection`, as a function
of the candidate energies. -/
def psfSelectionWinner (energies : List ℚ) : ℕ :=
  (psfSelectionLoop 0 2 0 energies).2

/-! ### Concurrent tree-walk passes as a transition system (C8) -/

/-- Local state of one worker thread inside
`midLevelKernelEstimationNode` / `midLevelKernelRefinement`: idle (between
loop iterations), holding a popped node id, or having written both children's
PSF (and entropy) slots but not yet pushed the children. -/
inductive WState where
  | idle : WState
  | popped : ℕ → WState
  | written : ℕ → WState
deriving DecidableEq

/-- Global state of a tree-walk pass: the shared FIFO queue of node ids, the
list of node ids whose PSF slot has been written, and the per-worker local
states. -/
structure Sys where
  queue : List ℕ
  inited : List ℕ
  workers : List WState
deriving DecidableEq

/-- Worker-local invariant: a worker holding a popped node holds an
initialized one, and a worker about to push has initialized both children. -/
def wOK (children : ℕ → Option (ℕ × ℕ)) (inited : List ℕ) : WState → Bool
  | .idle => true
  | .popped n => inited.contains n
  | .written n =>
    match children n with
    | some (c1, c2) => inited.contains c1 && inited.contains c2
    | none => true

/-- System invariant: every id in the shared queue has an initialized PSF
slot, and every worker's local state is consistent. -/
def sysOK (children : ℕ → Option (ℕ × ℕ)) (s : Sys) : Prop :=
  (∀ n ∈ s.queue, n ∈ s.inited) ∧ ∀ ws ∈ s.workers, wOK children s.inited ws = true

/-- One interleaved step of the tree-walk pass.  `pop` is the guarded pop of
`safeQueueAccess`; `write` covers the whole unlocked body that stores both
children's PSFs (and entropies) into the tree; `leafVisit` is the
leaf-counter branch; and `push` is the locked push of the two children ids,
which the source only reaches after both writes. -/
inductive Step (children : ℕ → Option (ℕ × ℕ)) : Sys → Sys → Prop where
  | pop (s s2 : Sys) (w n : ℕ) :
      s.workers.get? w = some .idle →
      s.queue = n :: s2.queue →
      s2.inited = s.inited →
      s2.workers = s.workers.set w (.popped n) →
      Step children s s2
  | write (s s2 : Sys) (w n c1 c2 : ℕ) :
      s.workers.get? w = some (.popped n) →
      children n = some (c1, c2) →
      s2.queue = s.queue →
      s2.inited = c1 :: c2 :: s.inited →
      s2.workers = s.workers.set w (.written n) →
      Step children s s2
  | leafVisit (s s2 : Sys) (w n : ℕ) :
      s.workers.get? w = some (.popped n) →
      children n = none →
      s2.queue = s.queue →
      s2.inited = s.inited →
      s2.workers = s.workers.set w .idle →
      Step children s s2
  | push (s s2 : Sys) (w n c1 c2 : ℕ) :
      s.workers.get? w = some (.written n) →
      children n = some (c1, c2) →
      s2.queue = s.queue ++ [c1, c2] →
      s2.inited = s.inited →
      s2.workers = s.workers.set w .idle →
      Step children s s2

/-! ### Deconvolution-call routing (C6, C7, C10) -/

/-- The two configured deconvolution solvers (the `deconvAlgo` knob stored
as `deconvAlgoPSFSelection`): direct frequency-domain inversion (`FFT`) or
iteratively reweighted least squares (`IRLS`). -/
inductive DeconvAlgo where
  | fft : DeconvAlgo
  | irls : DeconvAlgo
deriving DecidableEq

/-- Record of one latent-image solver invocation: which solver ran and the
mask argument it received (`none` when the call passes no mask). -/
structure DeconvCall (μ : Type) where
  usedIRLS : Bool
  maskArg : Option μ

/-- The latent-image solver call inside `psfSelection` (source lines
583–589): the FFT branch calls
`deconvolveFFT(floatImages[LEFT], latent, candidates[i])` with no mask
argument; only the IRLS branch passes the child's mask. -/
def psfSelectionDeconvCall (μ : Type) (config : DeconvAlgo) (mask : μ) : DeconvCall μ :=
  match config with
  | .fft => ⟨false, none⟩
  | .irls => ⟨true, some mask⟩

/-- `threshold(latent, latent, 1.0, -1, THRESH_TRUNC)` (source line 593). -/
def threshTrunc1 (img : ℕ → ℕ → ℚ) : ℕ → ℕ → ℚ :=
  fun r c => if 1 < img r c then 1 else img r c

/-- `latent *= 255` (source line 594). -/
def scale255 (img : ℕ → ℕ → ℚ) : ℕ → ℕ → ℚ := fun r c => img r c * 255

/-- One candidate's energy in `psfSelection` (source lines 576–606), with
the external solvers abstracted as parameters: deconvolve the left view
(mask passed only to the IRLS solver), clamp to `[0,1]`, rescale by 255,
Gaussian-smooth, shock-filter the smoothed image, and score
`1 − gradientCorrelation(latent, shockFiltered, mask)`. -/
def candidateEnergy (μ κ : Type) (deconvFFT : κ → ℕ → ℕ → ℚ)
    (deconvIRLS : κ → μ → ℕ → ℕ → ℚ) (gauss shock : (ℕ → ℕ → ℚ) → ℕ → ℕ → ℚ)
    (corr : (ℕ → ℕ → ℚ) → (ℕ → ℕ → ℚ) → μ → ℚ) (config : DeconvAlgo)
    (cand : κ) (mask : μ) : ℚ :=
  1 - corr (scale255 (threshTrunc1 (threshToZero
        (match config with
         | .fft => deconvFFT cand
         | .irls => deconvIRLS cand mask))))
      (shock (gauss (scale255 (threshTrunc1 (threshToZero
        (match config with
         | .fft => deconvFFT cand
         | .irls => deconvIRLS cand mask))))))
      mask

/-- One iteration of `deconvolveRegion` (source lines 904–932) for popped
region id `i`: the whole-image IRLS deconvolution of the region (abstracted
as `fresh`, covering `deconvolveIRLS` plus the two thresholds and the 8-bit
conversion) unconditionally overwrites slot `i` of the `regionDeconv`
store. -/
def reconstructRegion (α : Type) (fresh : ℕ → α) (store : ℕ → Option α)
    (i : ℕ) : ℕ → Option α :=
  fun j => if j = i then some (fresh i) else store j

/-- The reconstruction pass over the drained region stack: every popped id
is processed by `reconstructRegion`, starting from whatever the
`regionDeconv` store holds when the pass begins (in particular the latent
images cached by `psfSelection`). -/
def reconstructAll (α : Type) (fresh : ℕ → α) (store : ℕ → Option α) :
    List ℕ → ℕ → Option α
  | [] => store
  | i :: rest => reconstructAll α fresh (reconstructRegion α fresh store i) rest

/-- Record of one `deconvolveRegion` solver invocation: solver choice, mask
argument, kernel argument, and whether the whole image (not a crop) was
passed. -/
structure RegionDeconvCall (μ κ : Type) where
  usedIRLS : Bool
  maskArg : Option μ
  kernelArg : κ
  wholeImage : Bool

/-- The solver invocation of `deconvolveRegion` (source line 924):
`deconvolveIRLS(image, regionDeconv[i], regionTree[i].psf, mask)` — always
the IRLS solver, always the whole image restricted by the region's mask,
always the region's final PSF; the configured `deconvAlgoPSFSelection` knob
is not consulted. -/
def deconvolveRegionCall (μ κ : Type) (_config : DeconvAlgo) (psf : κ)
    (mask : μ) : RegionDeconvCall μ κ :=
  ⟨true, some mask, psf, true⟩

/-! ### Fatal failures (C9) -/

/-- Failure modes of the estimation pipeline: the unsupported-disparity
throw (`runtime_error("Invalid disparity algorithm")`, source line 88) and
the missing-kernel throw (`runtime_error("Can not load kernel!")`, source
line 201). -/
inductive DeblurFailure where
  | invalidDisparityAlgo : DeblurFailure
  | missingKernel : DeblurFailure
deriving DecidableEq

/-- The `disparityAlgo` enumerator value `SGBM` as an integer code. -/
def SGBM : ℕ := 0

/-- The `disparityAlgo` enumerator value `MATCH` as an integer code; a C++
enum variable can carry integer values outside the enumerator list. -/
def MATCH : ℕ := 1

/-- `DepthDeblur::disparityEstimation` (source lines 46–126), reduced to
its algorithm dispatch: the `SGBM` and `MATCH` branches run their
respective external estimators (abstracted as the two result parameters);
any other algorithm value throws before any disparity map or tree exists. -/
def disparityEstimation (δ : Type) (sgbmResult matchResult : δ)
    (algorithm : ℕ) : Except DeblurFailure δ :=
  if algorithm = SGBM then Except.ok sgbmResult
  else if algorithm = MATCH then Except.ok matchResult
  else Except.error DeblurFailure.invalidDisparityAlgo

/-- `DepthDeblur::toplevelKernelEstimation` (source lines 136–218): the
top-level node ids are walked in order, loading `kernel<i>.png` by loop
index `i`; a missing image throws, otherwise the kernel is normalized
(abstracted as `normalizeKernel`, modelling `kernelImage /= sum(...)`) and
assigned to the node. -/
def toplevelKernelEstimation (κ : Type) (normalizeKernel : κ → κ)
    (kernelImages : ℕ → Option κ) : ℕ → List ℕ → Except DeblurFailure (List (ℕ × κ))
  | _, [] => Except.ok []
  | i, id :: rest =>
    match kernelImages i with
    | none => Except.error DeblurFailure.missingKernel
    | some img =>
      Except.map (fun assigned => (id, normalizeKernel img) :: assigned)
        (toplevelKernelEstimation κ normalizeKernel kernelImages (i + 1) rest)

end DepthDeblur

namespace DepthDeblur

/-- Exact characterisation of the selection loop: either no element beats
the starting minimum and the accumulator is returned unchanged, or the
result is the first element achieving the strict minimum, which undercuts
the start, strictly undercuts every earlier element, and is at most every
later element. -/
theorem psfSelectionLoop_spec (l : List ℚ) (i : ℕ) (m : ℚ) (w : ℕ) :
    (psfSelectionLoop i m w l = (m, w) ∧ ∀ j (hj : j < l.length), m ≤ l[j]) ∨
    (∃ j, ∃ hj : j < l.length,
      psfSelectionLoop i m w l = (l[j], i + j) ∧ l[j] < m ∧
      (∀ j2 (hj2 : j2 < l.length), j2 < j → l[j] < l[j2]) ∧
      (∀ j2 (hj2 : j2 < l.length), j < j2 → l[j] ≤ l[j2])) := by
  induction l generalizing i m w with
  | nil =>
    left
    exact ⟨rfl, fun j hj => absurd hj (Nat.not_lt_zero j)⟩
  | cons e rest ih =>
    by_cases he : e < m
    · rcases ih (i + 1) e i with ⟨hr, hmin⟩ | ⟨j, hj, hr, hlt, hbefore, hafter⟩
      · right
        refine ⟨0, Nat.succ_pos _, ?_, ?_, ?_, ?_⟩
        · simpa [psfSelectionLoop, if_pos he] using hr
        · simpa using he
        · intro j2 hj2 h0
          exact absurd h0 (Nat.not_lt_zero j2)
        · intro j2 hj2 h0
          match j2, hj2, h0 with
          | j2 + 1, hj2, _ =>
            simpa using hmin j2 (Nat.lt_of_succ_lt_succ hj2)
      · right
        refine ⟨j + 1, Nat.succ_lt_succ hj, ?_, ?_, ?_, ?_⟩
        · simp only [psfSelectionLoop, if_pos he, List.getElem_cons_succ]
          rw [hr]
          congr 1
          omega
        · simpa using lt_trans hlt he
        · intro j2 hj2 hj2j
          match j2, hj2, hj2j with
          | 0, _, _ => simpa using hlt
          | j2 + 1, hj2, hj2j =>
            simpa using hbefore j2 (Nat.lt_of_succ_lt_succ hj2) (Nat.lt_of_succ_lt_succ hj2j)
        · intro j2 hj2 hjj2
          match j2, hj2, hjj2 with
          | j2 + 1, hj2, hjj2 =>
            simpa using hafter j2 (Nat.lt_of_succ_lt_succ hj2) (Nat.lt_of_succ_lt_succ hjj2)
    · rcases ih (i + 1) m w with ⟨hr, hmin⟩ | ⟨j, hj, hr, hlt, hbefore, hafter⟩
      · left
        refine ⟨by simpa [psfSelectionLoop, if_neg he] using hr, ?_⟩
        intro j hj2
        match j, hj2 with
        | 0, _ => simpa using not_lt.mp he
        | j + 1, hj2 => simpa using hmin j (Nat.lt_of_succ_lt_succ hj2)
      · right
        refine ⟨j + 1, Nat.succ_lt_succ hj, ?_, ?_, ?_, ?_⟩
        · simp only [psfSelectionLoop, if_neg he, List.getElem_cons_succ]
          rw [hr]
          congr 1
          omega
        · simpa using hlt
        · intro j2 hj2 hj2j
          match j2, hj2, hj2j with
          | 0, _, _ => simpa using lt_of_lt_of_le hlt (not_lt.mp he)
          | j2 + 1, hj2, hj2j =>
            simpa using hbefore j2 (Nat.lt_of_succ_lt_succ hj2) (Nat.lt_of_succ_lt_succ hj2j)
        · intro j2 hj2 hjj2
          match j2, hj2, hjj2 with
          | j2 + 1, hj2, hjj2 =>
            simpa using hafter j2 (Nat.lt_of_succ_lt_succ hj2) (Nat.lt_of_succ_lt_succ hjj2)

/-- The winner index is always a valid candidate index. -/
theorem psfSelectionWinner_lt (energies : List ℚ) (hne : energies ≠ []) :
    psfSelectionWinner energies < energies.length := by
  unfold psfSelectionWinner
  rcases psfSelectionLoop_spec energies 0 2 0 with ⟨hr, _⟩ | ⟨j, hj, hr, _⟩
  · rw [hr]
    exact List.length_pos.mpr hne
  · rw [hr]
    simpa using hj

/-- Claim C1: for every spectral bin, `jointPSFEstimation` computes the
kernel's frequency-domain value as the sum over both views of
`conj(Sx_v)·Bx_v + conj(Sy_v)·By_v` divided by the sum over both views of
`conj(Sx_v)·Sx_v + conj(Sy_v)·Sy_v` plus `γ·conj(D)·D`, with `γ = 1` and all
products complex.  View `0` is the reference (right) view, view `1` the
matching (left) view, matching the source's `r`/`m` suffixes. -/
theorem jointPSFEstimation_bin_formula (xsr ysr xsm ysm xbr ybr xbm ybm d : Cplx) :
    kernelBin xsr ysr xsm ysm xbr ybr xbm ybm d =
      kernelBinSpecFormula ![xsr, xsm] ![ysr, ysm] ![xbr, xbm] ![ybr, ybm] ⟨1, 0⟩ d := by
  unfold kernelBin kernelBinSpecFormula viewSum
  simp only [Matrix.cons_val_zero, Matrix.cons_val_one, Matrix.head_cons]
  congr 1
  ext <;> simp only [cadd, cmul, cconj] <;> ring

/-- Claim C2: after the inverse transform, `jointPSFEstimation` zeroes
negative entries, swaps slices to re-center, crops to a
`psfWidth × psfWidth` window and divides by its total, so whenever the
cropped sum is non-zero the returned kernel is entrywise non-negative
and sums to exactly 1. -/
theorem jointPSFEstimation_post_normalized (rows cols psfW : ℕ) (kernel : ℕ → ℕ → ℚ)
    (h : cropSum psfW (recenteredKernel rows cols psfW kernel) ≠ 0) :
    (∀ r c, 0 ≤ jointPSFPost rows cols psfW kernel r c) ∧
      cropSum psfW (jointPSFPost rows cols psfW kernel) = 1 := by
  have hthresh : ∀ (k : ℕ → ℕ → ℚ) r c, 0 ≤ threshToZero k r c := by
    intro k r c
    unfold threshToZero
    split
    · exact le_of_lt (by assumption)
    · exact le_refl 0
  have hnn : ∀ r c, 0 ≤ recenteredKernel rows cols psfW kernel r c :=
    fun r c => hthresh kernel _ _
  have hs0 : 0 ≤ cropSum psfW (recenteredKernel rows cols psfW kernel) := by
    unfold cropSum
    exact Finset.sum_nonneg fun r _ => Finset.sum_nonneg fun c _ => hnn r c
  constructor
  · intro r c
    unfold jointPSFPost
    exact div_nonneg (hnn r c) hs0
  · show (∑ r ∈ Finset.range psfW, ∑ c ∈ Finset.range psfW,
        recenteredKernel rows cols psfW kernel r c /
          cropSum psfW (recenteredKernel rows cols psfW kernel)) = 1
    simp only [← Finset.sum_div]
    exact div_self h

/-- Claim C2, witness: a concrete `4 × 4` kernel image with one negative
entry and `psfWidth = 3` has non-zero window sum, and the resulting PSF sums
to 1. -/
theorem jointPSFEstimation_post_normalized_witness :
    cropSum 3 (recenteredKernel 4 4 3 fun r c => if r = 0 ∧ c = 0 then -1 else 1) ≠ 0 ∧
      cropSum 3 (jointPSFPost 4 4 3 fun r c => if r = 0 ∧ c = 0 then -1 else 1) = 1 :=
  ⟨by norm_num [cropSum, recenteredKernel, swapSlices, threshToZero, Finset.sum_range_succ],
   (jointPSFEstimation_post_normalized 4 4 3
      (fun r c => if r = 0 ∧ c = 0 then -1 else 1)
      (by norm_num [cropSum, recenteredKernel, swapSlices, threshToZero,
        Finset.sum_range_succ])).2⟩

/-- Claim C3: in Pass 1, a child whose left or right view mask is empty
(mask sum zero) inherits the parent's PSF verbatim with no numeric
estimation call; a child with two non-empty masks gets the joint estimator
invoked on the parent's PSF. -/
theorem midLevelKernelEstimation_child_dispatch {α : Type}
    (estimate : α → (ℕ → ℕ → ℚ) → (ℕ → ℕ → ℚ) → α) (parentPSF : α)
    (rows cols : ℕ) (maskL maskR : ℕ → ℕ → ℚ) :
    (maskSum rows cols maskL = 0 ∨ maskSum rows cols maskR = 0 →
      estimateChildStep estimate parentPSF rows cols maskL maskR = (false, parentPSF)) ∧
    (maskSum rows cols maskL ≠ 0 → maskSum rows cols maskR ≠ 0 →
      estimateChildStep estimate parentPSF rows cols maskL maskR =
        (true, estimate parentPSF maskL maskR)) := by
  constructor
  · intro h
    unfold estimateChildStep
    rw [if_neg]
    rintro ⟨h1, h2⟩
    rcases h with h | h <;> [exact h1 h; exact h2 h]
  · intro h1 h2
    unfold estimateChildStep
    rw [if_pos ⟨h1, h2⟩]

/-- Claim C3, witness: with a concrete estimator over `ℚ`, an all-zero left
mask forces inheritance of the parent PSF, and all-ones masks trigger the
estimation call. -/
theorem midLevelKernelEstimation_child_dispatch_witness :
    estimateChildStep (fun p _ _ => p + 1) (7 : ℚ) 2 2 (fun _ _ => 0) (fun _ _ => 1) =
        (false, 7) ∧
      estimateChildStep (fun p _ _ => p + 1) (7 : ℚ) 2 2 (fun _ _ => 1) (fun _ _ => 1) =
        (true, 8) :=
  ⟨(midLevelKernelEstimation_child_dispatch (fun p _ _ => p + 1) (7 : ℚ) 2 2
      (fun _ _ => 0) (fun _ _ => 1)).1
      (Or.inl (by norm_num [maskSum, Finset.sum_range_succ])),
   by
    have h := (midLevelKernelEstimation_child_dispatch (fun p _ _ => p + 1) (7 : ℚ) 2 2
      (fun _ _ => 1) (fun _ _ => 1)).2
      (by norm_num [maskSum, Finset.sum_range_succ])
      (by norm_num [maskSum, Finset.sum_range_succ])
    rw [h]
    norm_num⟩

/-- Claim C4: `isReliablePSF` returns `true` iff the node's entropy minus
the mean entropy of its level peers is strictly less than `0.2` times that
mean; on level-peer entropies `[1, 1, 1, 5]` (mean 2, threshold 0.4) a node
with entropy 1 is reliable and the node with entropy 5 is not. -/
theorem isReliablePSF_iff_and_example :
    (∀ (entropy : ℚ) (peers : List ℚ),
        isReliablePSF entropy peers = true ↔
          entropy - levelMeanEntropy peers < 0.2 * levelMeanEntropy peers) ∧
      isReliablePSF 1 [1, 1, 1, 5] = true ∧ isReliablePSF 5 [1, 1, 1, 5] = false := by
  refine ⟨fun entropy peers => ?_,
    by norm_num [isReliablePSF, levelMeanEntropy],
    by norm_num [isReliablePSF, levelMeanEntropy]⟩
  unfold isReliablePSF
  split <;> simp_all

/-- Claim C5: the Pass-2 candidate list is `[own, parent]` plus the sibling
exactly when the sibling is reliable, and `psfSelection` returns the
candidate of strictly smallest energy, ties favouring the earliest
candidate; consequently the winner's energy is at most the own candidate's
energy (index 0).  The bound `e ≤ 2` holds for every actual energy since
`energy = 1 − correlation` with a normalized cross-correlation in
`[-1, 1]`; it is needed because the loop starts from `minEnergy = 2`. -/
theorem psfSelection_winner_minimal (α : Type) (energies : List ℚ)
    (hbound : ∀ e ∈ energies, e ≤ 2) (hne : energies ≠ [])
    (own parentPSF sibling : α) (siblingEntropy : ℚ) (siblingPeers : List ℚ) :
    (∀ j (hj : j < energies.length),
        energies.get ⟨psfSelectionWinner energies, psfSelectionWinner_lt energies hne⟩ ≤
            energies.get ⟨j, hj⟩ ∧
          (j < psfSelectionWinner energies →
            energies.get ⟨psfSelectionWinner energies, psfSelectionWinner_lt energies hne⟩ <
              energies.get ⟨j, hj⟩)) ∧
      energies.get ⟨psfSelectionWinner energies, psfSelectionWinner_lt energies hne⟩ ≤
        energies.get ⟨0, List.length_pos.mpr hne⟩ ∧
      (isReliablePSF siblingEntropy siblingPeers = true →
        candidateSelection α own parentPSF sibling siblingEntropy siblingPeers =
          [own, parentPSF, sibling]) ∧
      (isReliablePSF siblingEntropy siblingPeers = false →
        candidateSelection α own parentPSF sibling siblingEntropy siblingPeers =
          [own, parentPSF]) := by
  have hmain : ∀ j (hj : j < energies.length),
      energies.get ⟨psfSelectionWinner energies, psfSelectionWinner_lt energies hne⟩ ≤
          energies.get ⟨j, hj⟩ ∧
        (j < psfSelectionWinner energies →
          energies.get ⟨psfSelectionWinner energies, psfSelectionWinner_lt energies hne⟩ <
            energies.get ⟨j, hj⟩) := by
    rcases psfSelectionLoop_spec energies 0 2 0 with ⟨hr, hmin⟩ | ⟨j, hj, hr, hlt, hbefore, hafter⟩
    · have hw : psfSelectionWinner energies = 0 := by
        unfold psfSelectionWinner
        rw [hr]
      intro j2 hj2
      have hall : ∀ j3 (hj3 : j3 < energies.length), energies[j3] = 2 := by
        intro j3 hj3
        exact le_antisymm (hbound energies[j3] (energies.getElem_mem hj3)) (hmin j3 hj3)
      constructor
      · simp only [List.get_eq_getElem, hw]
        rw [hall 0 (List.length_pos.mpr hne), hall j2 hj2]
      · intro hlt2
        rw [hw] at hlt2
        exact absurd hlt2 (Nat.not_lt_zero j2)
    · have hw : psfSelectionWinner energies = j := by
        unfold psfSelectionWinner
        rw [hr]
        simp
      intro j2 hj2
      constructor
      · simp only [List.get_eq_getElem, hw]
        rcases Nat.lt_trichotomy j2 j with h | h | h
        · exact le_of_lt (hbefore j2 hj2 h)
        · subst h
          exact le_refl _
        · exact hafter j2 hj2 h
      · intro hlt2
        rw [hw] at hlt2
        simp only [List.get_eq_getElem, hw]
        exact hbefore j2 hj2 hlt2
  refine ⟨hmain, (hmain 0 (List.length_pos.mpr hne)).1, ?_, ?_⟩
  · intro h
    unfold candidateSelection
    rw [h]
    simp
  · intro h
    unfold candidateSelection
    rw [h]
    simp

/-- A worker-local invariant survives initializing one more node. -/
theorem wOK_mono (children : ℕ → Option (ℕ × ℕ)) (inited : List ℕ) (a : ℕ)
    (ws : WState) (h : wOK children inited ws = true) :
    wOK children (a :: inited) ws = true := by
  cases ws with
  | idle => rfl
  | popped n =>
    simp only [wOK, List.elem_iff] at h ⊢
    exact List.mem_cons_of_mem a h
  | written n =>
    simp only [wOK] at h ⊢
    cases hc : children n with
    | none => rfl
    | some p =>
      rcases p with ⟨c1, c2⟩
      rw [hc] at h
      simp only [Bool.and_eq_true, List.elem_iff] at h ⊢
      exact ⟨List.mem_cons_of_mem a h.1, List.mem_cons_of_mem a h.2⟩

/-- The system invariant is preserved by every interleaved step of the
tree-walk pass. -/
theorem sysOK_step (children : ℕ → Option (ℕ × ℕ)) (s s2 : Sys)
    (h : sysOK children s) (hs : Step children s s2) : sysOK children s2 := by
  obtain ⟨hq, hw⟩ := h
  cases hs with
  | pop w n hidle hqe hie hwe =>
    constructor
    · intro x hx
      rw [hie]
      exact hq x (hqe ▸ List.mem_cons_of_mem n hx)
    · intro ws hws
      rw [hwe] at hws
      rcases List.mem_or_eq_of_mem_set hws with hmem | rfl
      · rw [hie]
        exact hw ws hmem
      · simp only [wOK, List.elem_iff, hie]
        exact hq n (hqe ▸ List.mem_cons_self n s2.queue)
  | write w n c1 c2 hpop hc hqe hie hwe =>
    constructor
    · intro x hx
      rw [hie]
      exact List.mem_cons_of_mem c1 (List.mem_cons_of_mem c2 (hq x (hqe ▸ hx)))
    · intro ws hws
      rw [hwe] at hws
      rcases List.mem_or_eq_of_mem_set hws with hmem | rfl
      · rw [hie]
        exact wOK_mono children _ c1 ws (wOK_mono children _ c2 ws (hw ws hmem))
      · simp only [wOK, hc, hie, Bool.and_eq_true, List.elem_iff]
        exact ⟨List.mem_cons_self c1 _, List.mem_cons_of_mem c1 (List.mem_cons_self c2 _)⟩
  | leafVisit w n hpop hc hqe hie hwe =>
    constructor
    · intro x hx
      rw [hie]
      exact hq x (hqe ▸ hx)
    · intro ws hws
      rw [hwe] at hws
      rcases List.mem_or_eq_of_mem_set hws with hmem | rfl
      · rw [hie]
        exact hw ws hmem
      · rfl
  | push w n c1 c2 hwr hc hqe hie hwe =>
    have hchild : c1 ∈ s.inited ∧ c2 ∈ s.inited := by
      have hmem := hw (.written n) (List.get?_mem hwr)
      simp only [wOK, hc, Bool.and_eq_true, List.elem_iff] at hmem
      exact hmem
    constructor
    · intro x hx
      rw [hie]
      rw [hqe] at hx
      rcases List.mem_append.mp hx with hx | hx
      · exact hq x hx
      · simp only [List.mem_cons, List.not_mem_nil, or_false] at hx
        rcases hx with rfl | rfl
        · exact hchild.1
        · exact hchild.2
    · intro ws hws
      rw [hwe] at hws
      rcases List.mem_or_eq_of_mem_set hws with hmem | rfl
      · rw [hie]
        exact hw ws hmem
      · rfl

/-- Claim C8: in both tree-walk passes a child's id reaches the shared
queue only after its PSF (and entropy) slot has been written, so along any
interleaving that starts in a state where every queued id is initialized
(the roots are seeded externally before the pass), every id at the front of
the queue — the next one any worker can pop — is initialized. -/
theorem treeWalk_no_uninitialized_pop (children : ℕ → Option (ℕ × ℕ))
    (s0 s : Sys) (h0 : sysOK children s0)
    (hr : Relation.ReflTransGen (Step children) s0 s) :
    sysOK children s ∧ ∀ n rest, s.queue = n :: rest → n ∈ s.inited := by
  have hOK : sysOK children s := by
    induction hr with
    | refl => exact h0
    | tail hsteps hstep ih => exact sysOK_step children _ _ ih hstep
  exact ⟨hOK, fun n rest hq => hOK.1 n (hq ▸ List.mem_cons_self n rest)⟩

/-- Claim C8, witness: a single worker pops the root `0`, writes the PSFs of
children `1` and `2`, then pushes them; the invariant holds in the resulting
state. -/
theorem treeWalk_no_uninitialized_pop_witness :
    sysOK (fun n => if n = 0 then some (1, 2) else none)
      ⟨[1, 2], [1, 2, 0], [WState.idle]⟩ :=
  (treeWalk_no_uninitialized_pop (fun n => if n = 0 then some (1, 2) else none)
    ⟨[0], [0], [WState.idle]⟩ ⟨[1, 2], [1, 2, 0], [WState.idle]⟩
    (by unfold sysOK; decide)
    (Relation.ReflTransGen.tail
      (Relation.ReflTransGen.tail
        (Relation.ReflTransGen.tail Relation.ReflTransGen.refl
          (Step.pop ⟨[0], [0], [WState.idle]⟩ ⟨[], [0], [WState.popped 0]⟩ 0 0
            rfl rfl rfl rfl))
        (Step.write ⟨[], [0], [WState.popped 0]⟩ ⟨[], [1, 2, 0], [WState.written 0]⟩
          0 0 1 2 rfl rfl rfl rfl rfl))
      (Step.push ⟨[], [1, 2, 0], [WState.written 0]⟩ ⟨[1, 2], [1, 2, 0], [WState.idle]⟩
        0 0 1 2 rfl rfl rfl rfl rfl))).1

/-- Claim C5, witness: for concrete energies `[1, 1/2, 1/2]` and concrete
candidate PSFs over `ℕ`, the winner's energy is at most the own
candidate's. -/
theorem psfSelection_winner_minimal_witness :
    List.get ([1, 1/2, 1/2] : List ℚ)
        ⟨psfSelectionWinner [1, 1/2, 1/2],
         psfSelectionWinner_lt [1, 1/2, 1/2] (by simp)⟩ ≤
      List.get ([1, 1/2, 1/2] : List ℚ) ⟨0, by simp⟩ :=
  (psfSelection_winner_minimal ℕ [1, 1/2, 1/2]
    (by
      intro e he
      simp only [List.mem_cons, List.not_mem_nil, or_false] at he
      rcases he with h | h | h <;> rw [h] <;> norm_num)
    (by simp) 0 1 2 0 [1]).2.1

/-- Values of `reconstructAll` at ids not on the stack are untouched. -/
theorem reconstructAll_not_mem (α : Type) (fresh : ℕ → α) (store : ℕ → Option α)
    (ids : List ℕ) (i : ℕ) (h : i ∉ ids) :
    reconstructAll α fresh store ids i = store i := by
  induction ids generalizing store with
  | nil => rfl
  | cons a rest ih =>
    have hia : i ≠ a := fun he => h (he ▸ List.mem_cons_self a rest)
    have hir : i ∉ rest := fun hm => h (List.mem_cons_of_mem a hm)
    rw [show reconstructAll α fresh store (a :: rest) =
        reconstructAll α fresh (reconstructRegion α fresh store a) rest from rfl]
    rw [ih (reconstructRegion α fresh store a) hir]
    unfold reconstructRegion
    rw [if_neg hia]

/-- Claim C6, exhibit: for every region id on the reconstruction stack, the
final `regionDeconv` entry is the freshly recomputed deconvolution,
independent of whatever latent image `psfSelection` cached there — the
cache is overwritten, never consumed. -/
theorem deconvolveRegion_ignores_cache (α : Type) (fresh : ℕ → α)
    (store : ℕ → Option α) (ids : List ℕ) (i : ℕ) (h : i ∈ ids) :
    reconstructAll α fresh store ids i = some (fresh i) := by
  induction ids generalizing store with
  | nil => exact absurd h (List.not_mem_nil i)
  | cons a rest ih =>
    by_cases hm : i ∈ rest
    · exact ih (reconstructRegion α fresh store a) hm
    · have hia : i = a := by
        rcases List.mem_cons.mp h with hia | hm2
        · exact hia
        · exact absurd hm2 hm
      subst hia
      rw [show reconstructAll α fresh store (i :: rest) =
          reconstructAll α fresh (reconstructRegion α fresh store i) rest from rfl]
      rw [reconstructAll_not_mem α fresh (reconstructRegion α fresh store i) rest i hm]
      unfold reconstructRegion
      rw [if_pos rfl]

/-- Claim C6, witness: a leaf with a cached latent image (`some 999`) still
gets the fresh recomputation (`some 0`) after the reconstruction pass. -/
theorem deconvolveRegion_ignores_cache_witness :
    reconstructAll ℕ (fun n => n) (fun _ => some 999) [0, 1] 0 = some 0 :=
  deconvolveRegion_ignores_cache ℕ (fun n => n) (fun _ => some 999) [0, 1] 0
    (by decide)

/-- Claim C7, counterexample: under the FFT solver configuration, the
latent-image deconvolution in `psfSelection` receives no mask argument at
all, so it is not restricted to the child's mask. -/
theorem psfSelection_fft_unmasked_cex :
    (psfSelectionDeconvCall ℕ DeconvAlgo.fft 37).maskArg ≠ some 37 := by
  decide

/-- Claim C7 as amended: the candidate deconvolution is restricted to the
child's mask exactly when the configured solver is IRLS (the FFT call takes
no mask); for both configurations the result is clamped to `[0,1]`,
rescaled by 255, Gaussian-smoothed, shock-filtered, and scored by
`energy = 1 −` the gradient correlation, restricted to the mask, of the
clamped latent against its shock-filtered counterpart. -/
theorem psfSelection_candidate_scoring (μ κ : Type) (deconvFFT : κ → ℕ → ℕ → ℚ)
    (deconvIRLS : κ → μ → ℕ → ℕ → ℚ) (gauss shock : (ℕ → ℕ → ℚ) → ℕ → ℕ → ℚ)
    (corr : (ℕ → ℕ → ℚ) → (ℕ → ℕ → ℚ) → μ → ℚ) (cand : κ) (mask : μ) :
    (∀ config, (psfSelectionDeconvCall μ config mask).maskArg = some mask ↔
        config = DeconvAlgo.irls) ∧
      candidateEnergy μ κ deconvFFT deconvIRLS gauss shock corr DeconvAlgo.fft cand mask =
        1 - corr (scale255 (threshTrunc1 (threshToZero (deconvFFT cand))))
          (shock (gauss (scale255 (threshTrunc1 (threshToZero (deconvFFT cand)))))) mask ∧
      candidateEnergy μ κ deconvFFT deconvIRLS gauss shock corr DeconvAlgo.irls cand mask =
        1 - corr (scale255 (threshTrunc1 (threshToZero (deconvIRLS cand mask))))
          (shock (gauss (scale255 (threshTrunc1 (threshToZero (deconvIRLS cand mask)))))) mask := by
  refine ⟨fun config => ?_, rfl, rfl⟩
  cases config with
  | fft => simp [psfSelectionDeconvCall]
  | irls => simp [psfSelectionDeconvCall]

/-- A kernel image missing at any loop index below the node count makes the
top-level walk throw. -/
theorem toplevelKernelEstimation_missing (κ : Type) (normalizeKernel : κ → κ)
    (kernelImages : ℕ → Option κ) (start : ℕ) (ids : List ℕ) (j : ℕ)
    (hj : j < ids.length) (hmiss : kernelImages (start + j) = none) :
    toplevelKernelEstimation κ normalizeKernel kernelImages start ids =
      Except.error DeblurFailure.missingKernel := by
  induction ids generalizing start j with
  | nil => exact absurd hj (Nat.not_lt_zero j)
  | cons id rest ih =>
    cases hki : kernelImages start with
    | none => simp [toplevelKernelEstimation, hki]
    | some img =>
      cases j with
      | zero =>
        rw [Nat.add_zero] at hmiss
        rw [hmiss] at hki
        exact absurd hki (by simp)
      | succ j2 =>
        have hrec := ih (start + 1) j2 (Nat.lt_of_succ_lt_succ hj)
          (by rw [show start + 1 + j2 = start + (j2 + 1) from by omega]; exact hmiss)
        simp [toplevelKernelEstimation, hki, hrec, Except.map]

/-- Claim C9: an unsupported disparity algorithm makes
`disparityEstimation` throw (so no disparity map, region tree, or tree walk
is ever produced), and a missing externally supplied top-level kernel image
makes `toplevelKernelEstimation` throw (so no PSF propagation starts);
both are surfaced as errors, without retry or compensation. -/
theorem fatal_configuration_and_resource (δ κ : Type) (sgbmResult matchResult : δ)
    (normalizeKernel : κ → κ) (kernelImages : ℕ → Option κ) (algorithm : ℕ)
    (ids : List ℕ) (j : ℕ) (h1 : algorithm ≠ SGBM) (h2 : algorithm ≠ MATCH)
    (h3 : j < ids.length) (h4 : kernelImages j = none) :
    disparityEstimation δ sgbmResult matchResult algorithm =
        Except.error DeblurFailure.invalidDisparityAlgo ∧
      toplevelKernelEstimation κ normalizeKernel kernelImages 0 ids =
        Except.error DeblurFailure.missingKernel := by
  constructor
  · unfold disparityEstimation
    rw [if_neg h1, if_neg h2]
  · exact toplevelKernelEstimation_missing κ normalizeKernel kernelImages 0 ids j h3
      (by rw [Nat.zero_add]; exact h4)

/-- Claim C9, witness: algorithm code 5 (neither `SGBM = 0` nor
`MATCH = 1`) throws the configuration failure, and a kernel loader that
finds no image throws the resource failure for the single top-level node
10. -/
theorem fatal_configuration_and_resource_witness :
    disparityEstimation ℕ 0 0 5 = Except.error DeblurFailure.invalidDisparityAlgo ∧
      toplevelKernelEstimation ℕ (fun k => k) (fun _ => none) 0 [10] =
        Except.error DeblurFailure.missingKernel :=
  fatal_configuration_and_resource ℕ ℕ 0 0 (fun k => k) (fun _ => none) 5 [10] 0
    (by decide) (by decide) (by decide) rfl

/-- Claim C10: `deconvolveRegion` always invokes the IRLS solver on the
whole image restricted by the region's mask with the region's final PSF,
for every value of the configured deconvolution algorithm; the
configuration knob only routes the candidate-selection (and child-PSF
estimation) solver calls. -/
theorem deconvolveRegion_always_irls (μ κ : Type) (psf : κ) (mask : μ) :
    (∀ config, deconvolveRegionCall μ κ config psf mask =
        RegionDeconvCall.mk true (some mask) psf true) ∧
      (psfSelectionDeconvCall μ DeconvAlgo.fft mask).usedIRLS = false ∧
      (psfSelectionDeconvCall μ DeconvAlgo.irls mask).usedIRLS = true :=
  ⟨fun _ => rfl, rfl, rfl⟩

end DepthDeblur
